import Mathlib

/-!
Shallow embedding of `src/tools/experiment.py` (unwordle): the letter
frequency models (`WordStats`, `PositionalWordStats`), the information
scorers (`GuessScorer.score`, `PositionalGuessScorer.score`) and the
feedback matcher (`Matcher`, `filter_words`).

Python floats are modelled as exact rationals (all arithmetic performed by
the code is field arithmetic on rationals).  Python dictionaries and
counters are modelled as association lists, with `.get(key, default)`
lookup returning the first matching entry.  Python exceptions
(`ValueError`, `IndexError`, `ZeroDivisionError`, `AssertionError`) are
modelled with an explicit error type in `Except`.
-/

deriving instance DecidableEq for Except

/-- Exceptions raised by the embedded Python code. -/
inductive ExpErr where
  /-- Corresponds to `ValueError(f"Unknown response for {guess}: {state} at position {i}")`
  raised in `Matcher.__init__`. -/
  | valueError (guess : String) (state : Char) (pos : Nat)
  /-- Raised by `word[i]` for an out-of-range index. -/
  | indexError
  /-- Raised by division by zero. -/
  | zeroDivisionError
  /-- Raised by a failing `assert`. -/
  | assertionError
deriving DecidableEq

/-- Embedding of the `Matcher` class (experiment.py, lines 140-169).
Python sets and dicts are association lists; `bad_dict` and `good_dict`
are kept in insertion order (increasing position). -/
structure Matcher where
  bad_set : List Char
  good_set : List Char
  bad_dict : List (Nat × Char)
  good_dict : List (Nat × Char)
deriving DecidableEq

/-- The loop body of `Matcher.__init__`: iterate over the pairs produced by
`zip(guess, response)` with the running index `i`, dispatch on the feedback
symbol, and raise `ValueError` on anything outside `{+, -, !}`. -/
def Matcher.buildAux (guess : String) : Nat → List (Char × Char) → Except ExpErr Matcher
  | _, [] => .ok ⟨[], [], [], []⟩
  | i, (letter, state) :: rest =>
    if state = '+' then
      (Matcher.buildAux guess (i + 1) rest).map fun m =>
        { m with good_set := letter :: m.good_set, bad_dict := (i, letter) :: m.bad_dict }
    else if state = '-' then
      (Matcher.buildAux guess (i + 1) rest).map fun m =>
        { m with bad_set := letter :: m.bad_set }
    else if state = '!' then
      (Matcher.buildAux guess (i + 1) rest).map fun m =>
        { m with good_dict := (i, letter) :: m.good_dict }
    else
      .error (.valueError guess state i)

/-- Embedding of `Matcher.__init__(guess, response)`.  Note that Python's
`zip` silently truncates to the shorter of the two sequences. -/
def Matcher.build (guess response : String) : Except ExpErr Matcher :=
  Matcher.buildAux guess 0 (guess.toList.zip response.toList)

/-- The `good_dict` loop of `Matcher.match`: `if word[i] != letter: return False`.
Accessing `word[i]` out of range raises `IndexError`. -/
def Matcher.checkRequired (word : List Char) : List (Nat × Char) → Except ExpErr Bool
  | [] => .ok true
  | (i, letter) :: rest =>
    match word[i]? with
    | none => .error .indexError
    | some ch => if ch ≠ letter then .ok false else Matcher.checkRequired word rest

/-- The `bad_dict` loop of `Matcher.match`: `if word[i] == letter: return False`. -/
def Matcher.checkForbidden (word : List Char) : List (Nat × Char) → Except ExpErr Bool
  | [] => .ok true
  | (i, letter) :: rest =>
    match word[i]? with
    | none => .error .indexError
    | some ch => if ch = letter then .ok false else Matcher.checkForbidden word rest

/-- Embedding of `Matcher.match(word)` (named `matches` because `match` is a
Lean keyword): reject when an absent letter occurs in the word, when a
confirmed-present letter is missing, when a required-position letter
mismatches, or when a forbidden-position letter matches. -/
def Matcher.matches (m : Matcher) (word : String) : Except ExpErr Bool :=
  let letters := word.toList
  if m.bad_set.any (fun c => decide (c ∈ letters)) then .ok false
  else if m.good_set.all (fun c => decide (c ∈ letters)) = false then .ok false
  else do
    let r ← Matcher.checkRequired letters m.good_dict
    if r = false then .ok false
    else Matcher.checkForbidden letters m.bad_dict

/-- The list comprehension of `filter_words`: keep the words accepted by the
matcher, propagating any exception raised while matching. -/
def filterMatched (m : Matcher) : List String → Except ExpErr (List String)
  | [] => .ok []
  | w :: ws => do
    let b ← m.matches w
    let rest ← filterMatched m ws
    .ok (if b then w :: rest else rest)

/-- Embedding of `filter_words(words, guess, response)` (experiment.py,
lines 179-181). -/
def filter_words (words : List String) (guess response : String) :
    Except ExpErr (List String) := do
  let matcher ← Matcher.build guess response
  filterMatched matcher words

/-! ### Basic lemmas about `Except` reductions -/

@[simp] theorem exceptMapOk {ε α β : Type} (f : α → β) (x : α) :
    Except.map f (Except.ok x : Except ε α) = Except.ok (f x) := rfl

@[simp] theorem exceptMapError {ε α β : Type} (f : α → β) (e : ε) :
    Except.map f (Except.error e : Except ε α) = Except.error e := rfl

@[simp] theorem exceptBindEq {ε α β : Type} (x : Except ε α) (f : α → Except ε β) :
    x >>= f = Except.bind x f := rfl

@[simp] theorem exceptBindOk {ε α β : Type} (x : α) (f : α → Except ε β) :
    Except.bind (Except.ok x : Except ε α) f = f x := rfl

@[simp] theorem exceptBindError {ε α β : Type} (e : ε) (f : α → Except ε β) :
    Except.bind (Except.error e : Except ε α) f = Except.error e := rfl

@[simp] theorem exceptPureEq {ε α : Type} (x : α) :
    (pure x : Except ε α) = Except.ok x := rfl

/-! ### Lemmas about `Matcher.build` -/

theorem Matcher.buildAux_ok_of_valid (guess : String) (ps : List (Char × Char)) :
    ∀ i, (∀ p ∈ ps, p.2 = '+' ∨ p.2 = '-' ∨ p.2 = '!') →
      ∃ m, Matcher.buildAux guess i ps = .ok m := by
  induction ps with
  | nil => exact fun i _ => ⟨⟨[], [], [], []⟩, rfl⟩
  | cons q rest ih =>
    intro i h
    obtain ⟨letter, state⟩ := q
    obtain ⟨m, hm⟩ := ih (i + 1) fun p hp => h p (List.mem_cons_of_mem _ hp)
    have h0 : state = '+' ∨ state = '-' ∨ state = '!' :=
      h (letter, state) (List.mem_cons_self _ _)
    rcases h0 with h1 | h1 | h1 <;> simp [Matcher.buildAux, h1, hm]

theorem Matcher.buildAux_valid_of_ok (guess : String) (ps : List (Char × Char)) :
    ∀ i m, Matcher.buildAux guess i ps = .ok m →
      ∀ p ∈ ps, p.2 = '+' ∨ p.2 = '-' ∨ p.2 = '!' := by
  induction ps with
  | nil => intro _ _ _ p hp; cases hp
  | cons q rest ih =>
    intro i m hm p hp
    obtain ⟨letter, state⟩ := q
    by_cases h1 : state = '+'
    · rcases List.mem_cons.mp hp with hp | hp
      · subst hp; exact Or.inl h1
      · simp [Matcher.buildAux, h1] at hm
        cases hrest : Matcher.buildAux guess (i + 1) rest with
        | error e => rw [hrest] at hm; simp at hm
        | ok m' => exact ih (i + 1) m' hrest p hp
    · by_cases h2 : state = '-'
      · rcases List.mem_cons.mp hp with hp | hp
        · subst hp; exact Or.inr (Or.inl h2)
        · simp [Matcher.buildAux, h1, h2] at hm
          cases hrest : Matcher.buildAux guess (i + 1) rest with
          | error e => rw [hrest] at hm; simp at hm
          | ok m' => exact ih (i + 1) m' hrest p hp
      · by_cases h3 : state = '!'
        · rcases List.mem_cons.mp hp with hp | hp
          · subst hp; exact Or.inr (Or.inr h3)
          · simp [Matcher.buildAux, h1, h2, h3] at hm
            cases hrest : Matcher.buildAux guess (i + 1) rest with
            | error e => rw [hrest] at hm; simp at hm
            | ok m' => exact ih (i + 1) m' hrest p hp
        · simp [Matcher.buildAux, h1, h2, h3] at hm

theorem Matcher.buildAux_error_spec (guess : String) (ps : List (Char × Char)) :
    ∀ i e, Matcher.buildAux guess i ps = .error e →
      ∃ j lc c, ps[j]? = some (lc, c) ∧ ¬(c = '+' ∨ c = '-' ∨ c = '!') ∧
        e = .valueError guess c (i + j) := by
  induction ps with
  | nil => intro _ _ h; cases h
  | cons q rest ih =>
    intro i e hm
    obtain ⟨letter, state⟩ := q
    by_cases h1 : state = '+'
    · simp [Matcher.buildAux, h1] at hm
      cases hrest : Matcher.buildAux guess (i + 1) rest with
      | error e' =>
        rw [hrest] at hm
        simp only [exceptMapError, Except.error.injEq] at hm
        obtain ⟨j, lc, c, hj, hc, he⟩ := ih (i + 1) e' hrest
        refine ⟨j + 1, lc, c, by simpa using hj, hc, ?_⟩
        rw [← hm, he]; congr 1; omega
      | ok m' => rw [hrest] at hm; simp at hm
    · by_cases h2 : state = '-'
      · simp [Matcher.buildAux, h1, h2] at hm
        cases hrest : Matcher.buildAux guess (i + 1) rest with
        | error e' =>
          rw [hrest] at hm
          simp only [exceptMapError, Except.error.injEq] at hm
          obtain ⟨j, lc, c, hj, hc, he⟩ := ih (i + 1) e' hrest
          refine ⟨j + 1, lc, c, by simpa using hj, hc, ?_⟩
          rw [← hm, he]; congr 1; omega
        | ok m' => rw [hrest] at hm; simp at hm
      · by_cases h3 : state = '!'
        · simp [Matcher.buildAux, h1, h2, h3] at hm
          cases hrest : Matcher.buildAux guess (i + 1) rest with
          | error e' =>
            rw [hrest] at hm
            simp only [exceptMapError, Except.error.injEq] at hm
            obtain ⟨j, lc, c, hj, hc, he⟩ := ih (i + 1) e' hrest
            refine ⟨j + 1, lc, c, by simpa using hj, hc, ?_⟩
            rw [← hm, he]; congr 1; omega
          | ok m' => rw [hrest] at hm; simp at hm
        · simp [Matcher.buildAux, h1, h2, h3] at hm
          refine ⟨0, letter, state, by simp, ?_, ?_⟩
          · intro hor; rcases hor with h | h | h <;> contradiction
          · rw [← hm]; rfl

theorem zipReplicateBang (l : List Char) :
    l.zip (List.replicate l.length '!') = l.map (fun c => (c, '!')) := by
  induction l with
  | nil => rfl
  | cons c cs ih => simp [List.replicate_succ, ih]

theorem Matcher.buildAux_allCorrect (guess : String) (l : List Char) :
    ∀ i, Matcher.buildAux guess i (l.map (fun c => (c, '!'))) =
      .ok ⟨[], [], [], l.enumFrom i⟩ := by
  induction l with
  | nil => intro i; rfl
  | cons c cs ih => intro i; simp [Matcher.buildAux, ih (i + 1)]

theorem Matcher.checkRequired_ok (word : List Char) (entries : List (Nat × Char)) :
    (∀ p ∈ entries, word[p.1]? = some p.2) →
      Matcher.checkRequired word entries = .ok true := by
  induction entries with
  | nil => intro _; rfl
  | cons q rest ih =>
    intro h
    obtain ⟨i, letter⟩ := q
    have hq : word[i]? = some letter := h (i, letter) (List.mem_cons_self _ _)
    simp [Matcher.checkRequired, hq, ih fun p hp => h p (List.mem_cons_of_mem _ hp)]

/-! ### Lemmas about `filterMatched` -/

theorem filterMatched_ok_eq (m : Matcher) (ws : List String) :
    ∀ l, filterMatched m ws = .ok l →
      l = ws.filter (fun w => decide (m.matches w = .ok true)) := by
  induction ws with
  | nil =>
    intro l h
    simp only [filterMatched, Except.ok.injEq] at h
    rw [← h]; rfl
  | cons w ws ih =>
    intro l h
    simp only [filterMatched, exceptBindEq] at h
    cases hb : m.matches w with
    | error e => rw [hb] at h; simp at h
    | ok b =>
      rw [hb] at h
      simp only [exceptBindOk] at h
      cases hrest : filterMatched m ws with
      | error e => rw [hrest] at h; simp at h
      | ok rest =>
        rw [hrest] at h
        simp only [exceptBindOk, exceptPureEq, Except.ok.injEq] at h
        subst h
        cases b <;> simp [List.filter_cons, hb, ih rest hrest]

theorem filterMatched_all_ok (m : Matcher) (ws : List String) :
    (∀ w ∈ ws, m.matches w = .ok true) → filterMatched m ws = .ok ws := by
  induction ws with
  | nil => intro _; rfl
  | cons w ws ih =>
    intro h
    have hw : m.matches w = .ok true := h w (List.mem_cons_self _ _)
    simp [filterMatched, hw, ih fun x hx => h x (List.mem_cons_of_mem _ hx)]

/-! ### Claims C1, C2, C4, C9, C10 -/

/-- C1: the claim is false on the code.  The spec's encoding maps the
symbol `+` to Correct, but in the code `+` is the Present symbol: it puts
each guess letter into `bad_dict` (forbidden at its own position), so a
guess never matches itself under all-`+` feedback.  Concretely the matcher
built from guess "ab" and feedback "++" rejects "ab". -/
theorem c1_counterexample :
    Except.bind (Matcher.build "ab" "++") (fun m => m.matches "ab") =
      Except.ok false := by decide

/-- C1 (amended): in the code the Correct symbol is `!`, not `+`.  For
every guess g, building a matcher from g and the feedback consisting of
the code's Correct symbol `!` at every position succeeds and yields a
constraint that g itself satisfies: `match(g)` returns true. -/
theorem c1_self_match_all_correct (g : String) :
    Except.bind (Matcher.build g (String.mk (List.replicate g.length '!')))
      (fun m => m.matches g) = Except.ok true := by
  have hzip : g.toList.zip (String.mk (List.replicate g.length '!')).toList =
      g.toList.map (fun c => (c, '!')) := by
    have h1 : (String.mk (List.replicate g.length '!')).toList =
        List.replicate g.toList.length '!' := rfl
    rw [h1, zipReplicateBang]
  have hbuild : Matcher.build g (String.mk (List.replicate g.length '!')) =
      .ok ⟨[], [], [], g.toList.enumFrom 0⟩ := by
    rw [Matcher.build, hzip]; exact Matcher.buildAux_allCorrect g g.toList 0
  rw [hbuild, exceptBindOk]
  have hreq : Matcher.checkRequired g.toList (g.toList.enumFrom 0) = .ok true := by
    apply Matcher.checkRequired_ok
    intro p hp
    obtain ⟨i, c⟩ := p
    have := List.mk_mem_enumFrom_iff_le_and_getElem?_sub.mp hp
    simpa using this.2
  have hreq' : Matcher.checkRequired g.data (List.enumFrom 0 g.data) = .ok true := hreq
  simp [Matcher.matches, hreq', Matcher.checkForbidden]

/-- C2: the claim is false on the code.  `Matcher.__init__` performs no
length check: `zip(guess, response)` silently truncates to the shorter
sequence, so building a matcher from the length-4 guess "abcd" and the
length-3 feedback "+-!" succeeds (ignoring the fourth guess letter)
instead of raising any length-mismatch error. -/
theorem c2_counterexample :
    Matcher.build "abcd" "+-!" =
      Except.ok ⟨['b'], ['a'], [(0, 'a')], [(2, 'c')]⟩ := by decide

/-- C2 (amended): constructing a matcher never raises a length-mismatch
error.  The guess and feedback are paired by zip truncation, and
construction succeeds whenever every feedback symbol among the zipped
pairs is one of the three recognized tags - in particular for a guess and
feedback of differing lengths. -/
theorem c2_no_length_check (g r : String)
    (h : ∀ p ∈ g.toList.zip r.toList, p.2 = '+' ∨ p.2 = '-' ∨ p.2 = '!') :
    ∃ m, Matcher.build g r = .ok m :=
  Matcher.buildAux_ok_of_valid g (g.toList.zip r.toList) 0 h

/-- Witness for C2 (amended) at guess "abcd" (length 4) and feedback "+-!"
(length 3). -/
theorem c2_witness :
    (∀ p ∈ ("abcd" : String).toList.zip ("+-!" : String).toList,
      p.2 = '+' ∨ p.2 = '-' ∨ p.2 = '!') ∧
    (∃ m, Matcher.build "abcd" "+-!" = .ok m) :=
  ⟨by decide, c2_no_length_check "abcd" "+-!" (by decide)⟩

/-- C4: with guess and feedback of equal length, construction raises the
invalid-symbol error (the code's `ValueError`, identifying the guess, the
offending character and its position) if and only if some feedback
character lies outside the symbol set; when every character is one of
`+`, `-`, `!`, construction succeeds. -/
theorem c4_invalid_feedback_iff (g r : String) (hlen : g.length = r.length) :
    ((∃ i c, Matcher.build g r = .error (.valueError g c i) ∧
        r.toList[i]? = some c ∧ ¬(c = '+' ∨ c = '-' ∨ c = '!')) ↔
      ∃ c ∈ r.toList, ¬(c = '+' ∨ c = '-' ∨ c = '!')) ∧
    ((∀ c ∈ r.toList, c = '+' ∨ c = '-' ∨ c = '!') →
      ∃ m, Matcher.build g r = .ok m) := by
  have hlen' : g.toList.length = r.toList.length := hlen
  constructor
  · constructor
    · rintro ⟨i, c, _, hget, hc⟩
      exact ⟨c, List.getElem?_mem hget, hc⟩
    · rintro ⟨c, hmem, hc⟩
      have hinv : ¬ ∀ p ∈ g.toList.zip r.toList,
          p.2 = '+' ∨ p.2 = '-' ∨ p.2 = '!' := by
        intro hall
        obtain ⟨n, hn⟩ := List.mem_iff_getElem?.mp hmem
        have hnr : n < r.toList.length := (List.getElem?_eq_some_iff.mp hn).1
        have hng : n < g.toList.length := by omega
        have hz : (g.toList.zip r.toList)[n]? = some (g.toList[n], c) :=
          List.getElem?_zip_eq_some.mpr ⟨List.getElem?_eq_getElem hng, hn⟩
        exact hc (hall _ (List.getElem?_mem hz))
      cases hb : Matcher.build g r with
      | ok m => exact absurd (Matcher.buildAux_valid_of_ok g _ 0 m hb) hinv
      | error e =>
        obtain ⟨j, lc, c', hj, hc', he⟩ := Matcher.buildAux_error_spec g _ 0 e hb
        have hr : r.toList[j]? = some c' := (List.getElem?_zip_eq_some.mp hj).2
        refine ⟨j, c', ?_, hr, hc'⟩
        rw [he]; norm_num
  · intro hall
    apply Matcher.buildAux_ok_of_valid
    intro p hp
    obtain ⟨a, b⟩ := p
    exact hall b (List.of_mem_zip hp).2

/-- Witness for C4 at guess "ab" and feedback "+x" - the symbol `x` at
position 1 is invalid, and the biconditional plus success statement
instantiate there. -/
theorem c4_witness :
    ("ab" : String).length = ("+x" : String).length ∧
    (((∃ i c, Matcher.build "ab" "+x" = .error (.valueError "ab" c i) ∧
        ("+x" : String).toList[i]? = some c ∧ ¬(c = '+' ∨ c = '-' ∨ c = '!')) ↔
      ∃ c ∈ ("+x" : String).toList, ¬(c = '+' ∨ c = '-' ∨ c = '!')) ∧
    ((∀ c ∈ ("+x" : String).toList, c = '+' ∨ c = '-' ∨ c = '!') →
      ∃ m, Matcher.build "ab" "+x" = .ok m)) :=
  ⟨by decide, c4_invalid_feedback_iff "ab" "+x" (by decide)⟩

/-- C9: whenever `filter_words` returns a result, the result is an
order-preserving subsequence of the input list - exactly the words
accepted by the constraint's match, in their original relative order - and
hence no longer than the input. -/
theorem c9_filter_sublist (words l : List String) (g r : String)
    (h : filter_words words g r = .ok l) :
    l.Sublist words ∧ l.length ≤ words.length ∧
      ∃ m, Matcher.build g r = .ok m ∧
        l = words.filter (fun w => decide (m.matches w = .ok true)) := by
  simp only [filter_words, exceptBindEq] at h
  cases hm : Matcher.build g r with
  | error e => rw [hm] at h; simp at h
  | ok m =>
    rw [hm] at h
    simp only [exceptBindOk] at h
    have hl := filterMatched_ok_eq m words l h
    subst hl
    exact ⟨List.filter_sublist _, (List.filter_sublist _).length_le, m, rfl, rfl⟩

/-- Witness for C9 on the word list ["ab", "bb"] with guess "ab" and
feedback "!!". -/
theorem c9_witness :
    filter_words ["ab", "bb"] "ab" "!!" = .ok ["ab"] ∧
    (["ab"] : List String).Sublist ["ab", "bb"] ∧
      (["ab"] : List String).length ≤ (["ab", "bb"] : List String).length ∧
      ∃ m, Matcher.build "ab" "!!" = .ok m ∧
        ["ab"] = (["ab", "bb"] : List String).filter
          (fun w => decide (m.matches w = .ok true)) :=
  ⟨by decide, c9_filter_sublist ["ab", "bb"] ["ab"] "ab" "!!" (by decide)⟩

/-- C10: `filter_words` is idempotent - if filtering a word list with a
guess/feedback pair returns a result, filtering that result again with the
same pair returns it unchanged. -/
theorem c10_filter_idempotent (words l : List String) (g r : String)
    (h : filter_words words g r = .ok l) :
    filter_words l g r = .ok l := by
  simp only [filter_words, exceptBindEq] at h ⊢
  cases hm : Matcher.build g r with
  | error e => rw [hm] at h; simp at h
  | ok m =>
    rw [hm] at h
    simp only [exceptBindOk] at h ⊢
    have hl := filterMatched_ok_eq m words l h
    apply filterMatched_all_ok
    intro w hw
    rw [hl] at hw
    simpa using List.of_mem_filter hw

/-- Witness for C10 on the word list ["ab", "bb"] with guess "ab" and
feedback "!!". -/
theorem c10_witness :
    filter_words ["ab", "bb"] "ab" "!!" = .ok ["ab"] ∧
    filter_words ["ab"] "ab" "!!" = .ok ["ab"] :=
  ⟨by decide, c10_filter_idempotent ["ab", "bb"] ["ab"] "ab" "!!" (by decide)⟩

/-! ### Letter frequency models -/

/-- Embedding of `collections.Counter[str]` as an association list from
letters to counts (keys are unique for every counter the program builds). -/
abbrev Counter := List (Char × Nat)

/-- Counter lookup with default 0. -/
def counterGet (l : Counter) (k : Char) : Nat :=
  match l with
  | [] => 0
  | (k', v) :: rest => if k' = k then v else counterGet rest k

/-- Add one occurrence of `k` to a counter: one step of `Counter.update`. -/
def counterAdd (l : Counter) (k : Char) : Counter :=
  match l with
  | [] => [(k, 1)]
  | (k', v) :: rest =>
    if k' = k then (k', v + 1) :: rest else (k', v) :: counterAdd rest k

/-- Embedding of `counter.update(keys)`: add one occurrence of each key. -/
def counterUpdate (l : Counter) (ks : List Char) : Counter :=
  ks.foldl counterAdd l

/-- Embedding of `LetterScores = dict[str, float]`, probabilities as exact
rationals. -/
abbrev LetterScores := List (Char × ℚ)

/-- Dictionary lookup `d.get(c, 0.0)`. -/
def lsGet (d : LetterScores) (k : Char) : ℚ :=
  match d with
  | [] => 0
  | (k', v) :: rest => if k' = k then v else lsGet rest k

/-- Embedding of `normalize_counter(counter, norm)` (experiment.py, lines
38-39): divide every count by `norm`.  When the counter is non-empty and
`norm` is zero Python raises `ZeroDivisionError`; an empty counter yields
an empty dict without performing any division.  The `most_common()`
reordering of the entries affects only dict iteration order, which no
lookup in the program depends on, and is not modelled. -/
def normalize_counter (counter : Counter) (norm : Nat) : Except ExpErr LetterScores :=
  match counter with
  | [] => .ok []
  | (k, v) :: rest =>
    if norm = 0 then .error .zeroDivisionError
    else (normalize_counter rest norm).map (fun d => (k, (v : ℚ) / (norm : ℚ)) :: d)

/-- The distinct letters of a word, `set(word)`.  A Python set iterates in
an unspecified order; only the underlying set of letters influences any
value computed by the program, so the `dedup` order is one valid choice. -/
def wordSet (w : String) : List Char := w.toList.dedup

/-- Embedding of the `WordStats` class (experiment.py, lines 13-21):
`overall[c]` is the probability that the letter `c` appears in a word. -/
structure WordStats where
  overall : LetterScores
deriving DecidableEq

/-- The counter accumulated in `WordStats.__init__`: each word contributes
every one of its distinct letters once. -/
def wordCounter (words : List String) : Counter :=
  words.foldl (fun acc w => counterUpdate acc (wordSet w)) []

/-- Embedding of `WordStats.__init__(words)`. -/
def WordStats.build (words : List String) : Except ExpErr WordStats :=
  (normalize_counter (wordCounter words) words.length).map WordStats.mk

/-- Embedding of the `PositionalWordStats` class (lines 24-35):
`positional[i][c]` is the probability that letter `c` occurs at position
`i`.  The `defaultdict(Counter)` keyed by position index is modelled as a
list of counters: position keys are always first encountered in increasing
order, so key insertion order coincides with list order. -/
structure PositionalWordStats where
  overall : LetterScores
  positional : List LetterScores
deriving DecidableEq

/-- One `counters[index][letter] += 1` step on the list of positional
counters, appending fresh empty counters the way `defaultdict` creates
missing entries. -/
def posUpdate : List Counter → Nat → Char → List Counter
  | [], 0, c => [counterAdd [] c]
  | [], i + 1, c => [] :: posUpdate [] i c
  | ctr :: rest, 0, c => counterAdd ctr c :: rest
  | ctr :: rest, i + 1, c => ctr :: posUpdate rest i c

/-- The positional counters accumulated in `PositionalWordStats.__init__`. -/
def posCounters (words : List String) : List Counter :=
  words.foldl
    (fun acc w => w.toList.enum.foldl (fun a2 ic => posUpdate a2 ic.1 ic.2) acc) []

/-- The list comprehension normalizing every positional counter in order. -/
def normalizeAll (counters : List Counter) (norm : Nat) :
    Except ExpErr (List LetterScores) :=
  match counters with
  | [] => .ok []
  | ctr :: rest => do
    let d ← normalize_counter ctr norm
    let ds ← normalizeAll rest norm
    .ok (d :: ds)

/-- Embedding of `PositionalWordStats.__init__(words)`: first the
superclass `WordStats.__init__`, then one normalization per positional
counter. -/
def PositionalWordStats.build (words : List String) :
    Except ExpErr PositionalWordStats := do
  let base ← WordStats.build words
  let positional ← normalizeAll (posCounters words) words.length
  .ok ⟨base.overall, positional⟩

/-! ### Scorers -/

/-- The loop of `GuessScorer.score` (experiment.py, lines 56-71) over the
distinct letters of the guess, accumulating `a + b` per letter, with the
two guarding `assert` statements. -/
def GuessScorer.scoreLoop (stats : WordStats) : List Char → Except ExpErr ℚ
  | [] => .ok 0
  | letter :: rest =>
    let f := lsGet stats.overall letter
    let a := (1 - f) * f
    if 0 ≤ a then
      let b := f * (1 - f)
      if 0 ≤ b then do
        let r ← GuessScorer.scoreLoop stats rest
        .ok (a + b + r)
      else .error .assertionError
    else .error .assertionError

/-- Embedding of `GuessScorer.score(guess)`: the summed outcome weights
over `set(guess)` divided by the full guess length; the empty guess raises
`ZeroDivisionError`. -/
def GuessScorer.score (stats : WordStats) (guess : String) : Except ExpErr ℚ := do
  let result ← GuessScorer.scoreLoop stats guess.toList.dedup
  if guess.length = 0 then .error .zeroDivisionError
  else .ok (result / (guess.length : ℚ))

/-- The per-position loop of `PositionalGuessScorer.score` (experiment.py,
lines 94-120): for the letter at each position, the outcome weights a
(gray), b (yellow) and c (green), with the three guarding `assert`
statements and the `positional[i]` list access (`IndexError` when out of
range).  Returns the per-occurrence outcomes tagged with their letter, in
position order. -/
def PositionalGuessScorer.outcomes (stats : PositionalWordStats) :
    List (Nat × Char) → Except ExpErr (List (Char × (ℚ × ℚ × ℚ)))
  | [] => .ok []
  | (i, letter) :: rest =>
    match stats.positional[i]? with
    | none => .error .indexError
    | some pos =>
      let f := lsGet stats.overall letter
      let p := lsGet pos letter
      let a := (1 - f) * f
      if 0 ≤ a then
        let b := (f - p) * (1 - f + p)
        if 0 ≤ b then
          let c := p * (1 - p)
          if 0 ≤ c then
            (PositionalGuessScorer.outcomes stats rest).map
              (fun l => (letter, a, b, c) :: l)
          else .error .assertionError
        else .error .assertionError
      else .error .assertionError

/-- Python `max` over a non-empty list (every occurrence list below is
non-empty for a distinct letter of the word). -/
def listMax : List ℚ → ℚ
  | [] => 0
  | x :: xs => xs.foldl max x

/-- Embedding of `PositionalGuessScorer.score(word)`: group the per
occurrence outcomes by letter (the `defaultdict(list)`), keep only the
maximal a, b and c for each distinct letter, sum these per-letter
contributions, and divide by the full word length.  Summing over `dedup`
instead of first-occurrence insertion order permutes a commutative sum and
leaves the value unchanged. -/
def PositionalGuessScorer.score (stats : PositionalWordStats) (word : String) :
    Except ExpErr ℚ := do
  let outs ← PositionalGuessScorer.outcomes stats word.toList.enum
  let result := (word.toList.dedup.map (fun ch =>
    let occs := (outs.filter (fun o => decide (o.1 = ch))).map (fun o => o.2)
    listMax (occs.map (fun o => o.1)) + listMax (occs.map (fun o => o.2.1)) +
      listMax (occs.map (fun o => o.2.2)))).sum
  if word.length = 0 then .error .zeroDivisionError
  else .ok (result / (word.length : ℚ))

/-! ### Counter lemmas -/

theorem counterGet_counterAdd (l : Counter) (k x : Char) :
    counterGet (counterAdd l k) x = counterGet l x + if k = x then 1 else 0 := by
  induction l with
  | nil => by_cases h : k = x <;> simp [counterAdd, counterGet, h]
  | cons q rest ih =>
    obtain ⟨k', v⟩ := q
    simp only [counterAdd]
    by_cases hkk : k' = k
    · subst hkk
      rw [if_pos rfl]
      by_cases hx : k' = x <;> simp [counterGet, hx]
    · rw [if_neg hkk]
      by_cases hx : k' = x
      · have hk : ¬(k = x) := fun h => hkk (hx.trans h.symm)
        simp [counterGet, hx, hk]
      · simp [counterGet, hx, ih]

theorem counterGet_counterUpdate (l : Counter) (ks : List Char) (x : Char) :
    counterGet (counterUpdate l ks) x = counterGet l x + ks.count x := by
  induction ks generalizing l with
  | nil => simp [counterUpdate]
  | cons k ks ih =>
    show counterGet (counterUpdate (counterAdd l k) ks) x = _
    rw [ih, counterGet_counterAdd, List.count_cons]
    by_cases h : k = x <;> (simp [h]; try omega)

theorem counterGet_wordCounter (words : List String) (c : Char) :
    counterGet (wordCounter words) c =
      words.countP (fun w => decide (c ∈ w.toList)) := by
  suffices h : ∀ init : Counter,
      counterGet (words.foldl (fun acc w => counterUpdate acc (wordSet w)) init) c =
        counterGet init c + words.countP (fun w => decide (c ∈ w.toList)) by
    simpa [wordCounter, counterGet] using h []
  induction words with
  | nil => intro init; simp
  | cons w ws ih =>
    intro init
    simp only [List.foldl_cons]
    rw [ih, counterGet_counterUpdate, List.countP_cons]
    have hc : (wordSet w).count c = if c ∈ w.toList then 1 else 0 :=
      List.count_dedup _ _
    by_cases h : c ∈ w.toList <;> (simp [hc, h]; try omega)

/-! ### Normalization lemmas -/

theorem lsGet_normalize (ctr : Counter) (n : Nat) :
    ∀ d, normalize_counter ctr n = .ok d →
      ∀ c, lsGet d c = (counterGet ctr c : ℚ) / (n : ℚ) := by
  induction ctr with
  | nil =>
    intro d h c
    simp only [normalize_counter, Except.ok.injEq] at h
    subst h
    simp [lsGet, counterGet]
  | cons q rest ih =>
    intro d h c
    obtain ⟨k, v⟩ := q
    simp only [normalize_counter] at h
    by_cases hn : n = 0
    · rw [if_pos hn] at h; simp at h
    · rw [if_neg hn] at h
      cases hrest : normalize_counter rest n with
      | error e => rw [hrest] at h; simp at h
      | ok d' =>
        rw [hrest] at h
        simp only [exceptMapOk, Except.ok.injEq] at h
        subst h
        simp only [lsGet, counterGet]
        by_cases hk : k = c
        · rw [if_pos hk, if_pos hk]
        · rw [if_neg hk, if_neg hk, ih d' hrest c]

theorem normalize_ok_of_ne (ctr : Counter) (n : Nat) (hn : n ≠ 0) :
    ∃ d, normalize_counter ctr n = .ok d := by
  induction ctr with
  | nil => exact ⟨[], rfl⟩
  | cons q rest ih =>
    obtain ⟨d', hd⟩ := ih
    obtain ⟨k, v⟩ := q
    exact ⟨(k, (v : ℚ) / (n : ℚ)) :: d', by simp [normalize_counter, hn, hd]⟩

/-! ### Lemmas about the built models -/

theorem WordStats.build_lsGet (words : List String) (s : WordStats)
    (h : WordStats.build words = .ok s) (c : Char) :
    lsGet s.overall c =
      ((words.countP (fun w => decide (c ∈ w.toList)) : ℕ) : ℚ) / (words.length : ℚ) := by
  simp only [WordStats.build] at h
  cases hn : normalize_counter (wordCounter words) words.length with
  | error e => rw [hn] at h; simp at h
  | ok d =>
    rw [hn] at h
    simp only [exceptMapOk, Except.ok.injEq] at h
    subst h
    rw [show (WordStats.mk d).overall = d from rfl,
      lsGet_normalize _ _ _ hn c, counterGet_wordCounter]

theorem WordStats.build_total (words : List String) :
    ∃ s, WordStats.build words = .ok s := by
  cases words with
  | nil => exact ⟨⟨[]⟩, rfl⟩
  | cons w ws =>
    obtain ⟨d, hd⟩ :=
      normalize_ok_of_ne (wordCounter (w :: ws)) (w :: ws).length (by simp)
    refine ⟨⟨d⟩, ?_⟩
    show Except.map WordStats.mk
      (normalize_counter (wordCounter (w :: ws)) (w :: ws).length) = .ok ⟨d⟩
    rw [hd]
    rfl

theorem WordStats.overallBounds (words : List String) (s : WordStats)
    (h : WordStats.build words = .ok s) (c : Char) :
    0 ≤ lsGet s.overall c ∧ lsGet s.overall c ≤ 1 := by
  rw [WordStats.build_lsGet words s h c]
  constructor
  · exact div_nonneg (Nat.cast_nonneg _) (Nat.cast_nonneg _)
  · by_cases hn : words.length = 0
    · have hcount : words.countP (fun w => decide (c ∈ w.toList)) = 0 := by
        have hle := List.countP_le_length (fun w => decide (c ∈ w.toList)) (l := words)
        omega
      rw [hcount, hn]
      norm_num
    · rw [div_le_one (by exact_mod_cast Nat.pos_of_ne_zero hn)]
      exact_mod_cast List.countP_le_length _

/-! ### Claim C3 -/

/-- C3: the claim is false on the code.  Building `WordStats` from the
empty corpus does not raise any error: the accumulated counter is empty,
so the dict comprehension in `normalize_counter` performs no division at
all, and the construction succeeds with an empty score map. -/
theorem c3_counterexample : WordStats.build [] = Except.ok ⟨[]⟩ := rfl

/-- C3 (amended): building the letter-frequency model succeeds for every
corpus.  On the empty corpus the counter is empty and the result is the
empty score map - no division by zero and no NaN occurs, but also no
EmptyCorpus error is raised; on every non-empty corpus the corpus size is
positive and the construction succeeds as the claim states. -/
theorem c3_build_total (words : List String) :
    ∃ s, WordStats.build words = .ok s :=
  WordStats.build_total words

/-! ### Positional counter lemmas -/

theorem counterGet_posUpdate (i : Nat) :
    ∀ (l : List Counter) (j : Nat) (c x : Char),
      counterGet ((posUpdate l i c).getD j []) x =
        counterGet (l.getD j []) x + if j = i ∧ c = x then 1 else 0 := by
  induction i with
  | zero =>
    intro l j c x
    cases l with
    | nil =>
      cases j with
      | zero => simp [posUpdate, counterGet_counterAdd, counterGet]
      | succ k => simp [posUpdate, counterGet]
    | cons ctr rest =>
      cases j with
      | zero => simp [posUpdate, counterGet_counterAdd]
      | succ k => simp [posUpdate]
  | succ i' ih =>
    intro l j c x
    cases l with
    | nil =>
      cases j with
      | zero => simp [posUpdate, counterGet]
      | succ k => simpa [posUpdate] using ih [] k c x
    | cons ctr rest =>
      cases j with
      | zero => simp [posUpdate]
      | succ k => simpa [posUpdate] using ih rest k c x

theorem counterGet_enumFold (w : List (Nat × Char)) :
    ∀ (init : List Counter) (j : Nat) (x : Char),
      counterGet ((w.foldl (fun a2 ic => posUpdate a2 ic.1 ic.2) init).getD j []) x =
        counterGet (init.getD j []) x + w.count (j, x) := by
  induction w with
  | nil => intro init j x; simp
  | cons ic rest ih =>
    intro init j x
    simp only [List.foldl_cons]
    rw [ih, counterGet_posUpdate, List.count_cons]
    by_cases h1 : j = ic.1 <;> by_cases h2 : ic.2 = x <;>
      simp [h1, h2, Prod.ext_iff] <;> omega

theorem countEnumFrom (l : List Char) :
    ∀ (k j : Nat) (x : Char),
      (l.enumFrom k).count (j, x) =
        if k ≤ j ∧ l[j - k]? = some x then 1 else 0 := by
  induction l with
  | nil => intro k j x; simp
  | cons c cs ih =>
    intro k j x
    simp only [List.enumFrom_cons, List.count_cons]
    rw [ih (k + 1) j x]
    by_cases hjk : j = k
    · subst hjk
      have hrec : ¬(j + 1 ≤ j) := by omega
      by_cases hc : c = x <;>
        simp [hrec, hc, Prod.ext_iff, Nat.sub_self]
    · have hhead : ¬((k, c) = (j, x)) := by
        intro h; exact hjk (congrArg Prod.fst h).symm
      by_cases hle : k + 1 ≤ j
      · have h1 : k ≤ j := by omega
        have h2 : j - k = (j - (k + 1)) + 1 := by omega
        simp [hhead, h1, hle, h2, Prod.ext_iff]
      · have h1 : ¬(k ≤ j) := by omega
        simp [hhead, h1, hle, Prod.ext_iff]

theorem counterGet_posCountersAux (words : List String) :
    ∀ (init : List Counter) (j : Nat) (x : Char),
      counterGet ((words.foldl
          (fun acc w => w.toList.enum.foldl (fun a2 ic => posUpdate a2 ic.1 ic.2) acc)
          init).getD j []) x =
        counterGet (init.getD j []) x +
          words.countP (fun w => decide (w.toList[j]? = some x)) := by
  induction words with
  | nil => intro init j x; simp
  | cons w ws ih =>
    intro init j x
    simp only [List.foldl_cons]
    rw [ih, counterGet_enumFold, List.countP_cons]
    have henum : (w.data.enum).count (j, x) =
        if w.data[j]? = some x then 1 else 0 := by
      have h0 := countEnumFrom w.data 0 j x
      simpa [List.enum_eq_enumFrom] using h0
    by_cases h : w.data[j]? = some x <;> (simp [henum, h]; try omega)

theorem counterGet_posCounters (words : List String) (j : Nat) (x : Char) :
    counterGet ((posCounters words).getD j []) x =
      words.countP (fun w => decide (w.toList[j]? = some x)) := by
  have h0 := counterGet_posCountersAux words [] j x
  rw [show counterGet (([] : List Counter).getD j []) x = 0 from rfl,
    Nat.zero_add] at h0
  exact h0

theorem normalizeAll_ok_getD (ctrs : List Counter) (n : Nat) :
    ∀ ds, normalizeAll ctrs n = .ok ds →
      ds.length = ctrs.length ∧
      ∀ j c, lsGet (ds.getD j []) c =
        (counterGet (ctrs.getD j []) c : ℚ) / (n : ℚ) := by
  induction ctrs with
  | nil =>
    intro ds h
    simp only [normalizeAll, Except.ok.injEq] at h
    subst h
    exact ⟨rfl, fun j c => by simp [lsGet, counterGet]⟩
  | cons ctr rest ih =>
    intro ds h
    simp only [normalizeAll, exceptBindEq] at h
    cases hd : normalize_counter ctr n with
    | error e => rw [hd] at h; simp at h
    | ok d =>
      rw [hd] at h
      simp only [exceptBindOk] at h
      cases hds : normalizeAll rest n with
      | error e => rw [hds] at h; simp at h
      | ok ds' =>
        rw [hds] at h
        simp only [exceptBindOk, Except.ok.injEq] at h
        subst h
        obtain ⟨hlen, hget⟩ := ih ds' hds
        refine ⟨by simp [hlen], fun j c => ?_⟩
        cases j with
        | zero => simpa using lsGet_normalize ctr n d hd c
        | succ k => simpa using hget k c

theorem countDiv_le_one (words : List String) (p : String → Bool) :
    ((words.countP p : ℕ) : ℚ) / (words.length : ℚ) ≤ 1 := by
  by_cases hn : words.length = 0
  · have h0 : words.countP p = 0 := by
      have hle := List.countP_le_length p (l := words)
      omega
    rw [h0, hn]
    norm_num
  · rw [div_le_one (by exact_mod_cast Nat.pos_of_ne_zero hn)]
    exact_mod_cast List.countP_le_length p

theorem PositionalWordStats.build_spec (words : List String)
    (ps : PositionalWordStats) (h : PositionalWordStats.build words = .ok ps) :
    (∀ c, lsGet ps.overall c =
      ((words.countP (fun w => decide (c ∈ w.toList)) : ℕ) : ℚ) /
        (words.length : ℚ)) ∧
    ∀ j c, lsGet (ps.positional.getD j []) c =
      ((words.countP (fun w => decide (w.toList[j]? = some c)) : ℕ) : ℚ) /
        (words.length : ℚ) := by
  simp only [PositionalWordStats.build, exceptBindEq] at h
  cases hb : WordStats.build words with
  | error e => rw [hb] at h; simp at h
  | ok base =>
    rw [hb] at h
    simp only [exceptBindOk] at h
    cases hna : normalizeAll (posCounters words) words.length with
    | error e => rw [hna] at h; simp at h
    | ok ds =>
      rw [hna] at h
      simp only [exceptBindOk, Except.ok.injEq] at h
      subst h
      constructor
      · intro c
        exact WordStats.build_lsGet words base hb c
      · intro j c
        obtain ⟨hlen, hget⟩ :=
          normalizeAll_ok_getD (posCounters words) words.length ds hna
        rw [show (PositionalWordStats.mk base.overall ds).positional = ds from rfl,
          hget j c, counterGet_posCounters]

theorem PositionalWordStats.positionalBounds (words : List String)
    (ps : PositionalWordStats) (h : PositionalWordStats.build words = .ok ps)
    (j : Nat) (c : Char) :
    0 ≤ lsGet (ps.positional.getD j []) c ∧
      lsGet (ps.positional.getD j []) c ≤ lsGet ps.overall c ∧
      lsGet ps.overall c ≤ 1 := by
  obtain ⟨hov, hpos⟩ := PositionalWordStats.build_spec words ps h
  have hcount : words.countP (fun w => decide (w.toList[j]? = some c)) ≤
      words.countP (fun w => decide (c ∈ w.toList)) := by
    apply List.countP_mono_left
    intro w _ hw
    simp only [decide_eq_true_eq] at hw ⊢
    exact List.getElem?_mem hw
  refine ⟨?_, ?_, ?_⟩
  · rw [hpos j c]
    exact div_nonneg (Nat.cast_nonneg _) (Nat.cast_nonneg _)
  · rw [hpos j c, hov c]
    by_cases hn : words.length = 0
    · rw [hn]
      norm_num
    · have hlenpos : (0 : ℚ) < (words.length : ℚ) := by
        exact_mod_cast Nat.pos_of_ne_zero hn
      rw [div_le_div_iff_of_pos_right hlenpos]
      exact_mod_cast hcount
  · rw [hov c]
    exact countDiv_le_one words _

/-! ### Claim C7 -/

/-- C7: for every positional model built from a corpus of equal-length
words, for every position index within the word length and every letter,
the positional probability lies between 0 and the overall probability,
which in turn is at most 1; an unrecorded letter's probability is 0, the
dictionary lookup default. -/
theorem c7_model_invariant (words : List String) (L : Nat)
    (ps : PositionalWordStats) (i : Nat) (c : Char)
    (h : PositionalWordStats.build words = .ok ps)
    (_hL : ∀ w ∈ words, w.length = L) (_hi : i < L) :
    0 ≤ lsGet (ps.positional.getD i []) c ∧
      lsGet (ps.positional.getD i []) c ≤ lsGet ps.overall c ∧
      lsGet ps.overall c ≤ 1 :=
  PositionalWordStats.positionalBounds words ps h i c

/-! ### Scorer closed forms -/

theorem stringLengthNeZero (w : String) (hw : w ≠ "") : w.length ≠ 0 := by
  intro h0
  apply hw
  cases w with
  | mk data =>
    have hd : data = [] := List.length_eq_zero.mp h0
    subst hd
    rfl

theorem GuessScorer.scoreLoop_eq (stats : WordStats) (l : List Char)
    (hb : ∀ c ∈ l, 0 ≤ lsGet stats.overall c ∧ lsGet stats.overall c ≤ 1) :
    GuessScorer.scoreLoop stats l = .ok ((l.map (fun c =>
      lsGet stats.overall c * (1 - lsGet stats.overall c) +
        lsGet stats.overall c * (1 - lsGet stats.overall c))).sum) := by
  induction l with
  | nil => rfl
  | cons letter rest ih =>
    obtain ⟨h0, h1⟩ := hb letter (List.mem_cons_self _ _)
    have ha : 0 ≤ (1 - lsGet stats.overall letter) * lsGet stats.overall letter :=
      mul_nonneg (by linarith) h0
    have hbq : 0 ≤ lsGet stats.overall letter * (1 - lsGet stats.overall letter) :=
      mul_nonneg h0 (by linarith)
    have step : GuessScorer.scoreLoop stats (letter :: rest) =
        Except.bind (GuessScorer.scoreLoop stats rest) (fun r =>
          Except.ok ((1 - lsGet stats.overall letter) * lsGet stats.overall letter +
            lsGet stats.overall letter * (1 - lsGet stats.overall letter) + r)) := by
      simp only [GuessScorer.scoreLoop]
      rw [if_pos ha, if_pos hbq]
      rfl
    rw [step, ih (fun c hc => hb c (List.mem_cons_of_mem _ hc))]
    simp only [exceptBindEq, exceptBindOk, List.map_cons, List.sum_cons,
      Except.ok.injEq]
    ring

/-! ### Claim C5 -/

/-- C5: for every frequency model whose probabilities are well formed on
the guess letters and every non-empty guess, the information score equals
the sum over the distinct letters of the guess (duplicates counted once)
of f*(1-f) + f*(1-f) - with f the letter's overall presence probability, 0
when unseen - divided by the full guess length including duplicates. -/
theorem c5_information_score_closed_form (stats : WordStats) (guess : String)
    (hg : guess ≠ "")
    (hb : ∀ c ∈ guess.toList,
      0 ≤ lsGet stats.overall c ∧ lsGet stats.overall c ≤ 1) :
    GuessScorer.score stats guess = .ok
      (((guess.toList.dedup.map (fun c =>
        lsGet stats.overall c * (1 - lsGet stats.overall c) +
          lsGet stats.overall c * (1 - lsGet stats.overall c))).sum) /
        (guess.length : ℚ)) := by
  have hloop := GuessScorer.scoreLoop_eq stats guess.toList.dedup
    (fun c hc => hb c (List.mem_dedup.mp hc))
  have hlen : ¬(guess.length = 0) := stringLengthNeZero guess hg
  simp only [GuessScorer.score, exceptBindEq, hloop, exceptBindOk, if_neg hlen]

/-- Witness for C5 at the model with overall probability 1/2 for the
letter a (0 for everything else) and the guess "aabb" from the spec's own
example. -/
theorem c5_witness :
    ("aabb" : String) ≠ "" ∧
    (∀ c ∈ ("aabb" : String).toList,
      0 ≤ lsGet [('a', (1 : ℚ)/2)] c ∧ lsGet [('a', (1 : ℚ)/2)] c ≤ 1) ∧
    GuessScorer.score ⟨[('a', (1 : ℚ)/2)]⟩ "aabb" = .ok
      (((("aabb" : String).toList.dedup.map (fun c =>
        lsGet [('a', (1 : ℚ)/2)] c * (1 - lsGet [('a', (1 : ℚ)/2)] c) +
          lsGet [('a', (1 : ℚ)/2)] c * (1 - lsGet [('a', (1 : ℚ)/2)] c))).sum) /
        (("aabb" : String).length : ℚ)) := by
  have hb : ∀ c ∈ ("aabb" : String).toList,
      0 ≤ lsGet [('a', (1 : ℚ)/2)] c ∧ lsGet [('a', (1 : ℚ)/2)] c ≤ 1 := by
    intro c hc
    have hc' : c ∈ ['a', 'a', 'b', 'b'] := hc
    fin_cases hc' <;> (simp [lsGet]; try norm_num)
  exact ⟨by decide, hb,
    c5_information_score_closed_form ⟨[('a', (1 : ℚ)/2)]⟩ "aabb" (by decide) hb⟩

/-! ### Positional scorer closed form -/

/-- The gray outcome weight as the specification states it: f*(1-f), with
f the letter's overall presence probability. -/
def specGray (stats : PositionalWordStats) (ch : Char) : ℚ :=
  lsGet stats.overall ch * (1 - lsGet stats.overall ch)

/-- The yellow outcome weight as the specification states it: (f-p)*(1-f+p),
with p the positional probability of the letter at index i. -/
def specYellow (stats : PositionalWordStats) (i : Nat) (ch : Char) : ℚ :=
  (lsGet stats.overall ch - lsGet (stats.positional.getD i []) ch) *
    (1 - lsGet stats.overall ch + lsGet (stats.positional.getD i []) ch)

/-- The green outcome weight as the specification states it: p*(1-p). -/
def specGreen (stats : PositionalWordStats) (i : Nat) (ch : Char) : ℚ :=
  lsGet (stats.positional.getD i []) ch *
    (1 - lsGet (stats.positional.getD i []) ch)

theorem PositionalGuessScorer.outcomes_eq (stats : PositionalWordStats)
    (ics : List (Nat × Char))
    (hidx : ∀ ic ∈ ics, ic.1 < stats.positional.length)
    (hb : ∀ ic ∈ ics,
      0 ≤ lsGet (stats.positional.getD ic.1 []) ic.2 ∧
      lsGet (stats.positional.getD ic.1 []) ic.2 ≤ lsGet stats.overall ic.2 ∧
      lsGet stats.overall ic.2 ≤ 1) :
    PositionalGuessScorer.outcomes stats ics = .ok (ics.map (fun ic =>
      (ic.2, specGray stats ic.2, specYellow stats ic.1 ic.2,
        specGreen stats ic.1 ic.2))) := by
  induction ics with
  | nil => rfl
  | cons ic rest ih =>
    obtain ⟨i, letter⟩ := ic
    have hi : i < stats.positional.length :=
      hidx (i, letter) (List.mem_cons_self _ _)
    obtain ⟨hp0, hpf, hf1⟩ := hb (i, letter) (List.mem_cons_self _ _)
    have hf0 : 0 ≤ lsGet stats.overall letter := le_trans hp0 hpf
    have hp1 : lsGet (stats.positional.getD i []) letter ≤ 1 := le_trans hpf hf1
    have hsome : stats.positional[i]? = some (stats.positional.getD i []) := by
      rw [List.getElem?_eq_getElem hi, List.getD_eq_getElem?_getD,
        List.getElem?_eq_getElem hi]
      rfl
    have ha : 0 ≤ (1 - lsGet stats.overall letter) * lsGet stats.overall letter :=
      mul_nonneg (by linarith) hf0
    have hb2 : 0 ≤ (lsGet stats.overall letter -
          lsGet (stats.positional.getD i []) letter) *
        (1 - lsGet stats.overall letter +
          lsGet (stats.positional.getD i []) letter) :=
      mul_nonneg (by linarith) (by linarith)
    have hc2 : 0 ≤ lsGet (stats.positional.getD i []) letter *
        (1 - lsGet (stats.positional.getD i []) letter) :=
      mul_nonneg hp0 (by linarith)
    have step : PositionalGuessScorer.outcomes stats ((i, letter) :: rest) =
        Except.map (fun l => (letter,
          (1 - lsGet stats.overall letter) * lsGet stats.overall letter,
          (lsGet stats.overall letter - lsGet (stats.positional.getD i []) letter) *
            (1 - lsGet stats.overall letter +
              lsGet (stats.positional.getD i []) letter),
          lsGet (stats.positional.getD i []) letter *
            (1 - lsGet (stats.positional.getD i []) letter)) :: l)
          (PositionalGuessScorer.outcomes stats rest) := by
      simp only [PositionalGuessScorer.outcomes, hsome]
      rw [if_pos ha, if_pos hb2, if_pos hc2]
    rw [step, ih (fun q hq => hidx q (List.mem_cons_of_mem _ hq))
      (fun q hq => hb q (List.mem_cons_of_mem _ hq))]
    simp only [exceptMapOk, Except.ok.injEq, List.map_cons]
    have hgray : (1 - lsGet stats.overall letter) * lsGet stats.overall letter =
        specGray stats letter := mul_comm _ _
    rw [hgray]
    rfl

theorem leFoldlMax (xs : List ℚ) : ∀ a : ℚ, a ≤ xs.foldl max a := by
  induction xs with
  | nil => intro a; simp
  | cons y ys ih => intro a; exact le_trans (le_max_left a y) (ih (max a y))

theorem listMax_nonneg (l : List ℚ) (h : ∀ x ∈ l, 0 ≤ x) : 0 ≤ listMax l := by
  cases l with
  | nil => simp [listMax]
  | cons x xs =>
    have hx : 0 ≤ x := h x (List.mem_cons_self _ _)
    exact le_trans hx (leFoldlMax xs x)

theorem PositionalGuessScorer.score_eq (stats : PositionalWordStats)
    (word : String) (hw : word ≠ "")
    (hlen : word.length ≤ stats.positional.length)
    (hb : ∀ ic ∈ word.toList.enum,
      0 ≤ lsGet (stats.positional.getD ic.1 []) ic.2 ∧
      lsGet (stats.positional.getD ic.1 []) ic.2 ≤ lsGet stats.overall ic.2 ∧
      lsGet stats.overall ic.2 ≤ 1) :
    PositionalGuessScorer.score stats word = .ok
      (((word.toList.dedup.map (fun ch =>
        listMax ((word.toList.enum.filter (fun ic => decide (ic.2 = ch))).map
          (fun ic => specGray stats ic.2)) +
        listMax ((word.toList.enum.filter (fun ic => decide (ic.2 = ch))).map
          (fun ic => specYellow stats ic.1 ic.2)) +
        listMax ((word.toList.enum.filter (fun ic => decide (ic.2 = ch))).map
          (fun ic => specGreen stats ic.1 ic.2)))).sum) /
        (word.length : ℚ)) := by
  have hidx : ∀ ic ∈ word.toList.enum, ic.1 < stats.positional.length := by
    intro ic hic
    obtain ⟨i, c⟩ := ic
    have hmem := List.mk_mem_enumFrom_iff_le_and_getElem?_sub.mp
      (by simpa [List.enum_eq_enumFrom] using hic)
    have hi : i < word.toList.length :=
      (List.getElem?_eq_some_iff.mp (by simpa using hmem.2)).1
    exact lt_of_lt_of_le hi hlen
  have houts := PositionalGuessScorer.outcomes_eq stats word.toList.enum hidx hb
  simp only [PositionalGuessScorer.score, exceptBindEq, houts, exceptBindOk,
    if_neg (stringLengthNeZero word hw), Except.ok.injEq]
  simp only [List.filter_map, List.map_map]
  rfl

/-! ### Claim C6 -/

/-- C6: for every positional frequency model that is well formed on the
word's occurrences and covers its positions, and every non-empty word, the
positional information score equals the sum over the word's distinct
letters of max-a + max-b + max-c - the gray, yellow and green outcome
weights a = f*(1-f), b = (f-p)*(1-f+p), c = p*(1-p) of each occurrence,
with the maxima taken across that letter's occurrences so repeated letters
count once - divided by the full word length including duplicates. -/
theorem c6_positional_score_closed_form (stats : PositionalWordStats)
    (word : String) (hw : word ≠ "")
    (hlen : word.length ≤ stats.positional.length)
    (hb : ∀ ic ∈ word.toList.enum,
      0 ≤ lsGet (stats.positional.getD ic.1 []) ic.2 ∧
      lsGet (stats.positional.getD ic.1 []) ic.2 ≤ lsGet stats.overall ic.2 ∧
      lsGet stats.overall ic.2 ≤ 1) :
    PositionalGuessScorer.score stats word = .ok
      (((word.toList.dedup.map (fun ch =>
        listMax ((word.toList.enum.filter (fun ic => decide (ic.2 = ch))).map
          (fun ic => specGray stats ic.2)) +
        listMax ((word.toList.enum.filter (fun ic => decide (ic.2 = ch))).map
          (fun ic => specYellow stats ic.1 ic.2)) +
        listMax ((word.toList.enum.filter (fun ic => decide (ic.2 = ch))).map
          (fun ic => specGreen stats ic.1 ic.2)))).sum) /
        (word.length : ℚ)) :=
  PositionalGuessScorer.score_eq stats word hw hlen hb

/-- Witness for C6 at the model with overall probability 1/2 for the
letter a, empty positional tables for both positions, and the word "ab". -/
theorem c6_witness :
    ("ab" : String) ≠ "" ∧
    ("ab" : String).length ≤
      (PositionalWordStats.mk [('a', (1 : ℚ)/2)] [[], []]).positional.length ∧
    (∀ ic ∈ ("ab" : String).toList.enum,
      0 ≤ lsGet ((PositionalWordStats.mk [('a', (1 : ℚ)/2)]
          [[], []]).positional.getD ic.1 []) ic.2 ∧
      lsGet ((PositionalWordStats.mk [('a', (1 : ℚ)/2)]
          [[], []]).positional.getD ic.1 []) ic.2 ≤
        lsGet (PositionalWordStats.mk [('a', (1 : ℚ)/2)] [[], []]).overall ic.2 ∧
      lsGet (PositionalWordStats.mk [('a', (1 : ℚ)/2)] [[], []]).overall ic.2 ≤ 1) ∧
    PositionalGuessScorer.score (PositionalWordStats.mk [('a', (1 : ℚ)/2)] [[], []])
        "ab" = .ok
      (((("ab" : String).toList.dedup.map (fun ch =>
        listMax ((("ab" : String).toList.enum.filter
            (fun ic => decide (ic.2 = ch))).map
          (fun ic => specGray (PositionalWordStats.mk [('a', (1 : ℚ)/2)]
            [[], []]) ic.2)) +
        listMax ((("ab" : String).toList.enum.filter
            (fun ic => decide (ic.2 = ch))).map
          (fun ic => specYellow (PositionalWordStats.mk [('a', (1 : ℚ)/2)]
            [[], []]) ic.1 ic.2)) +
        listMax ((("ab" : String).toList.enum.filter
            (fun ic => decide (ic.2 = ch))).map
          (fun ic => specGreen (PositionalWordStats.mk [('a', (1 : ℚ)/2)]
            [[], []]) ic.1 ic.2)))).sum) /
        (("ab" : String).length : ℚ)) := by
  have hb : ∀ ic ∈ ("ab" : String).toList.enum,
      0 ≤ lsGet ((PositionalWordStats.mk [('a', (1 : ℚ)/2)]
          [[], []]).positional.getD ic.1 []) ic.2 ∧
      lsGet ((PositionalWordStats.mk [('a', (1 : ℚ)/2)]
          [[], []]).positional.getD ic.1 []) ic.2 ≤
        lsGet (PositionalWordStats.mk [('a', (1 : ℚ)/2)] [[], []]).overall ic.2 ∧
      lsGet (PositionalWordStats.mk [('a', (1 : ℚ)/2)] [[], []]).overall ic.2 ≤ 1 := by
    intro ic hic
    have hic' : ic ∈ [(0, 'a'), (1, 'b')] := hic
    fin_cases hic' <;> (simp [lsGet]; try norm_num)
  exact ⟨by decide, by decide, hb,
    c6_positional_score_closed_form _ "ab" (by decide) (by decide) hb⟩

/-- Witness for C7 on the corpus ["ab", "bb"] of equal word length 2, at
position 0 and letter a. -/
theorem c7_witness :
    PositionalWordStats.build ["ab", "bb"] = .ok
      ⟨[('a', (1 : ℚ)/2), ('b', 1)], [[('a', (1 : ℚ)/2), ('b', 1/2)], [('b', 1)]]⟩ ∧
    (∀ w ∈ (["ab", "bb"] : List String), w.length = 2) ∧ 0 < 2 ∧
    (0 ≤ lsGet [('a', (1 : ℚ)/2), ('b', 1/2)] 'a' ∧
      lsGet [('a', (1 : ℚ)/2), ('b', 1/2)] 'a' ≤
        lsGet [('a', (1 : ℚ)/2), ('b', 1)] 'a' ∧
      lsGet [('a', (1 : ℚ)/2), ('b', 1)] 'a' ≤ 1) := by
  have hbuild : PositionalWordStats.build ["ab", "bb"] = .ok
      ⟨[('a', (1 : ℚ)/2), ('b', 1)],
        [[('a', (1 : ℚ)/2), ('b', 1/2)], [('b', 1)]]⟩ := by
    simp [PositionalWordStats.build, WordStats.build, wordCounter, counterUpdate,
      counterAdd, wordSet, normalize_counter, posCounters, posUpdate, normalizeAll,
      List.enum, List.enumFrom]
  refine ⟨hbuild, by decide, by decide, ?_⟩
  exact c7_model_invariant ["ab", "bb"] 2 _ 0 'a' hbuild (by decide) (by decide)

/-! ### Claim C8 -/

/-- C8: for every frequency model built from a corpus and every non-empty
word within the positional model's range, both information scorers return
a value - so the guarding assertions on the intermediate outcome weights
a, b, c never fail - and the returned score is non-negative. -/
theorem c8_scores_nonneg (words : List String) (w : String)
    (s : WordStats) (ps : PositionalWordStats)
    (hs : WordStats.build words = .ok s)
    (hps : PositionalWordStats.build words = .ok ps)
    (hw : w ≠ "") (hlen : w.length ≤ ps.positional.length) :
    (∃ q, GuessScorer.score s w = .ok q ∧ 0 ≤ q) ∧
    (∃ q, PositionalGuessScorer.score ps w = .ok q ∧ 0 ≤ q) := by
  constructor
  · have hb : ∀ c ∈ w.toList,
        0 ≤ lsGet s.overall c ∧ lsGet s.overall c ≤ 1 :=
      fun c _ => WordStats.overallBounds words s hs c
    have hloop := GuessScorer.scoreLoop_eq s w.toList.dedup
      (fun c hc => hb c (List.mem_dedup.mp hc))
    have hscore : GuessScorer.score s w = .ok
        ((w.toList.dedup.map (fun c =>
          lsGet s.overall c * (1 - lsGet s.overall c) +
            lsGet s.overall c * (1 - lsGet s.overall c))).sum /
          (w.length : ℚ)) := by
      simp only [GuessScorer.score, exceptBindEq, hloop, exceptBindOk,
        if_neg (stringLengthNeZero w hw)]
    refine ⟨_, hscore, ?_⟩
    apply div_nonneg _ (Nat.cast_nonneg _)
    apply List.sum_nonneg
    intro x hx
    obtain ⟨c, hc, rfl⟩ := List.mem_map.mp hx
    obtain ⟨h0, h1⟩ := hb c (List.mem_dedup.mp hc)
    have hm : 0 ≤ lsGet s.overall c * (1 - lsGet s.overall c) :=
      mul_nonneg h0 (by linarith)
    linarith
  · have hb : ∀ ic ∈ w.toList.enum,
        0 ≤ lsGet (ps.positional.getD ic.1 []) ic.2 ∧
        lsGet (ps.positional.getD ic.1 []) ic.2 ≤ lsGet ps.overall ic.2 ∧
        lsGet ps.overall ic.2 ≤ 1 :=
      fun ic _ => PositionalWordStats.positionalBounds words ps hps ic.1 ic.2
    have hscore := PositionalGuessScorer.score_eq ps w hw hlen hb
    refine ⟨_, hscore, ?_⟩
    apply div_nonneg _ (Nat.cast_nonneg _)
    apply List.sum_nonneg
    intro x hx
    obtain ⟨ch, _, rfl⟩ := List.mem_map.mp hx
    have hgray : 0 ≤ listMax ((w.toList.enum.filter
        (fun ic => decide (ic.2 = ch))).map (fun ic => specGray ps ic.2)) := by
      apply listMax_nonneg
      intro y hy
      obtain ⟨ic, _, rfl⟩ := List.mem_map.mp hy
      obtain ⟨hp0, hpf, hf1⟩ := PositionalWordStats.positionalBounds words ps hps ic.1 ic.2
      have hf0 : 0 ≤ lsGet ps.overall ic.2 := le_trans hp0 hpf
      simp only [specGray]
      exact mul_nonneg hf0 (by linarith)
    have hyellow : 0 ≤ listMax ((w.toList.enum.filter
        (fun ic => decide (ic.2 = ch))).map (fun ic => specYellow ps ic.1 ic.2)) := by
      apply listMax_nonneg
      intro y hy
      obtain ⟨ic, _, rfl⟩ := List.mem_map.mp hy
      obtain ⟨hp0, hpf, hf1⟩ := PositionalWordStats.positionalBounds words ps hps ic.1 ic.2
      simp only [specYellow]
      exact mul_nonneg (by linarith) (by linarith)
    have hgreen : 0 ≤ listMax ((w.toList.enum.filter
        (fun ic => decide (ic.2 = ch))).map (fun ic => specGreen ps ic.1 ic.2)) := by
      apply listMax_nonneg
      intro y hy
      obtain ⟨ic, _, rfl⟩ := List.mem_map.mp hy
      obtain ⟨hp0, hpf, hf1⟩ := PositionalWordStats.positionalBounds words ps hps ic.1 ic.2
      simp only [specGreen]
      exact mul_nonneg hp0 (by linarith)
    linarith

/-- Witness for C8 on the corpus ["ab", "bb"] and the word "ab". -/
theorem c8_witness :
    WordStats.build ["ab", "bb"] = .ok ⟨[('a', (1 : ℚ)/2), ('b', 1)]⟩ ∧
    PositionalWordStats.build ["ab", "bb"] = .ok
      ⟨[('a', (1 : ℚ)/2), ('b', 1)], [[('a', (1 : ℚ)/2), ('b', 1/2)], [('b', 1)]]⟩ ∧
    ("ab" : String) ≠ "" ∧
    ("ab" : String).length ≤
      ([[('a', (1 : ℚ)/2), ('b', 1/2)], [('b', 1)]] : List LetterScores).length ∧
    ((∃ q, GuessScorer.score ⟨[('a', (1 : ℚ)/2), ('b', 1)]⟩ "ab" = .ok q ∧ 0 ≤ q) ∧
      (∃ q, PositionalGuessScorer.score
        ⟨[('a', (1 : ℚ)/2), ('b', 1)], [[('a', (1 : ℚ)/2), ('b', 1/2)], [('b', 1)]]⟩
        "ab" = .ok q ∧ 0 ≤ q)) := by
  have hsb : WordStats.build ["ab", "bb"] = .ok ⟨[('a', (1 : ℚ)/2), ('b', 1)]⟩ := by
    simp [WordStats.build, wordCounter, counterUpdate, counterAdd, wordSet,
      normalize_counter]
  have hpb : PositionalWordStats.build ["ab", "bb"] = .ok
      ⟨[('a', (1 : ℚ)/2), ('b', 1)],
        [[('a', (1 : ℚ)/2), ('b', 1/2)], [('b', 1)]]⟩ := by
    simp [PositionalWordStats.build, WordStats.build, wordCounter, counterUpdate,
      counterAdd, wordSet, normalize_counter, posCounters, posUpdate, normalizeAll,
      List.enum, List.enumFrom]
  exact ⟨hsb, hpb, by decide, by decide,
    c8_scores_nonneg ["ab", "bb"] "ab" _ _ hsb hpb (by decide) (by decide)⟩
